import Mathlib

/-!
Shallow embedding of the `improve-ai/gym` reward-attribution worker.

Source files embedded:
* `src/assign_rewards/join_rewards.py` — shard assignment
  (`identify_files_to_process`), the windowed attribution pass
  (`assign_rewards_to_decisions`, `update_listeners`);
* `src/ingest_firehose/worker.py` — the ingest orchestrator (`worker`,
  `process_decisions`) and its repair fan-in.

Modelling conventions:
* Python numeric reward values are modelled as rationals (`ℚ`);
* parsed `datetime` instants are modelled as integers (`Int`); a stored
  timestamp string is modelled by `Option Int` — `none` stands for a string
  that `datetime.strptime` rejects, `some t` for one that parses to instant
  `t`; `timedelta` addition becomes integer addition;
* Python exceptions become `Except PyErr`; an exception aborts the whole
  call, and no partial in-place mutation is observable through a value
  returned by the embedded functions, so the all-or-nothing `Except` model
  is observationally faithful for function results;
* the in-place mutation of decision dicts shared between the returned
  `decision_records` list and the listener lists is modelled by a store of
  records indexed by position in the concatenated record list; listener
  lists hold store indices.
-/

namespace JoinRewards

/-- Python exceptions that the embedded code can raise. -/
inductive PyErr where
  | typeError
  | updateListenersError
  | invalidTypeError
  | valueError
  | keyError
  | zeroDivisionError
deriving DecidableEq, Repr

/-- Dynamically typed Python value appearing in a numeric position:
either an actual number (`int`/`float`, modelled as `ℚ`) or some
non-numeric value (carrying a descriptive string). -/
inductive RewArg where
  | num (q : ℚ)
  | nonNum (s : String)
deriving DecidableEq, Repr

/-- Dynamically typed argument in a `datetime` position: an actual
`datetime.datetime` (modelled as its instant) or some other value. -/
inductive TsArg where
  | dt (t : Int)
  | nonDt (s : String)
deriving DecidableEq, Repr

/-- A JSON record (Python dict) as used by `join_rewards.py`.
Fields that the code reads with `.get` are `Option`s (`none` = key absent,
except `timestamp`, where `none` models an unparseable timestamp string).
`properties` is `some v?` when the `properties` dict is present and its
`value` entry is `v?`; `extra` stands for all remaining dict entries, which
the code never touches. -/
structure Record where
  rtype : Option String := none
  timestamp : Option Int := none
  reward_key : Option String := none
  rewards : Option (List (String × RewArg)) := none
  properties : Option (Option RewArg) := none
  reward : Option RewArg := none
  extra : List (String × String) := []
deriving DecidableEq, Repr, Inhabited

/-- Configuration constants read by `join_rewards.py` from `config.py`.
Modelled from the spec: `config.py` is not part of the sources; the spec
(§3, §9, §6) lists `REWARD_WINDOW` (the window duration `W`),
`DEFAULT_REWARD_VALUE`, `DEFAULT_EVENTS_REWARD_VALUE` and
`DEFAULT_REWARD_KEY` as externally supplied configuration inputs, so they
are parameters of the embedding. -/
structure Cfg where
  reward_window : Int
  default_reward_value : ℚ
  default_events_reward_value : ℚ
  default_reward_key : String
deriving DecidableEq, Repr, Inhabited

/-- The backward in-place loop of `update_listeners` (join_rewards.py
lines 101-110).  The Python loop runs from the last index down to index 0,
deleting expired listeners in place and bumping the `reward` of the
others; any exception inside the `try` block (an unparseable listener
timestamp, or a stored non-numeric `reward` that cannot be added to)
is re-raised as `UpdateListenersError`.  The recursion processes the tail
(the higher indices) first, matching the backward iteration order. -/
def updateLoop (W : Int) (dR : ℚ) (t : Int) (v : ℚ) :
    List Record → Except PyErr (List Record)
  | [] => .ok []
  | l :: rest =>
    match updateLoop W dR t v rest with
    | .error e => .error e
    | .ok rest2 =>
      match l.timestamp with
      | none => .error .updateListenersError
      | some t0 =>
        if t0 + W < t then
          .ok rest2
        else
          match l.reward with
          | some (.nonNum _) => .error .updateListenersError
          | some (.num q) => .ok ({ l with reward := some (.num (q + v)) } :: rest2)
          | none => .ok ({ l with reward := some (.num (dR + v)) } :: rest2)

/-- Embedding of `update_listeners(listeners, record_timestamp, reward)`
(join_rewards.py lines 73-113).  The `listeners` argument is always a list
in the typed embedding, so the first `isinstance` check always passes; a
non-`datetime` `record_timestamp` or a non-numeric `reward` raises
`TypeError` before the loop runs. -/
def update_listeners (W : Int) (dR : ℚ) (listeners : List Record)
    (record_timestamp : TsArg) (reward : RewArg) : Except PyErr (List Record) :=
  match record_timestamp with
  | .nonDt _ => .error .typeError
  | .dt t =>
    match reward with
    | .nonNum _ => .error .typeError
    | .num v => updateLoop W dR t v listeners

/-- Lookup in a Python dict modelled as an insertion-ordered association
list (`dict.get(k)` / `dict.get(k, default)` hits the first — and only —
binding of `k`). -/
def lookupA {β : Type} (m : List (String × β)) (k : String) : Option β :=
  match m with
  | [] => none
  | (k2, v) :: rest => if k2 = k then some v else lookupA rest k

/-- Assignment `m[k] = v` on a Python dict modelled as an insertion-ordered
association list: an existing binding is updated in place (its position is
kept), a new key is appended at the end. -/
def setA {β : Type} (m : List (String × β)) (k : String) (v : β) :
    List (String × β) :=
  match m with
  | [] => [(k, v)]
  | (k2, w) :: rest => if k2 = k then (k2, v) :: rest else (k2, w) :: setA rest k v

/-- State of the single merge pass of `assign_rewards_to_decisions`:
`store` holds the current value of every record of the concatenated input
(indexed by its position in that concatenation — Python mutates the dicts
in place, the store makes that mutation explicit), and `listenerMap` is
the `decision_records_by_reward_key` dict, holding store indices in place
of the shared dict objects. -/
structure AttribState where
  store : List Record
  listenerMap : List (String × List Nat)
deriving DecidableEq, Repr, Inhabited

/-- The record object at store slot `i` (Python reads the dict through
the references held by the listener lists; slot contents never move). -/
def storeGet (store : List Record) (i : Nat) : Record :=
  store.getD i default

/-- The `update_listeners` loop acting through the store: the listener
list passed to `update_listeners` inside the pass is a list of store
indices, and the reward mutation is performed on the store.  This is the
same backward loop as `updateLoop`, element for element. -/
def update_listeners_idx (W : Int) (dR : ℚ) (t : Int) (v : ℚ)
    (store : List Record) :
    List Nat → Except PyErr (List Record × List Nat)
  | [] => .ok (store, [])
  | i :: rest =>
    match update_listeners_idx W dR t v store rest with
    | .error e => .error e
    | .ok (store2, rest2) =>
      let l := storeGet store2 i
      match l.timestamp with
      | none => .error .updateListenersError
      | some t0 =>
        if t0 + W < t then
          .ok (store2, rest2)
        else
          match l.reward with
          | some (.nonNum _) => .error .updateListenersError
          | some (.num q) =>
              .ok (store2.set i { l with reward := some (.num (q + v)) }, i :: rest2)
          | none =>
              .ok (store2.set i { l with reward := some (.num (dR + v)) }, i :: rest2)

/-- One `(reward_key, reward)` pair of a `rewards` record (join_rewards.py
lines 153-155): `listeners = decision_records_by_reward_key.get(reward_key, [])`
followed by `update_listeners(listeners, record_timestamp, reward)`.
For a key with no listener list the fresh empty list is updated (which
still type-checks the `reward` argument) and then discarded — the dict
gains no entry. -/
def processRewardPair (cfg : Cfg) (t : Int) (st : AttribState)
    (kv : String × RewArg) : Except PyErr AttribState :=
  match lookupA st.listenerMap kv.fst with
  | some idxs =>
    match kv.snd with
    | .nonNum _ => .error .typeError
    | .num v =>
      match update_listeners_idx cfg.reward_window cfg.default_reward_value
          t v st.store idxs with
      | .error e => .error e
      | .ok (store2, idxs2) => .ok ⟨store2, setA st.listenerMap kv.fst idxs2⟩
  | none =>
    match kv.snd with
    | .nonNum _ => .error .typeError
    | .num _ => .ok st

/-- Value extracted from an `event` record (join_rewards.py lines 159-160):
`record.get('properties', {'properties': {}}).get('value', DEFAULT_EVENTS_REWARD_VALUE)`.
Whether `properties` is absent or present without a `value` entry, the
default event reward value results. -/
def eventValue (cfg : Cfg) (r : Record) : RewArg :=
  match r.properties with
  | some (some v) => v
  | some none => .num cfg.default_events_reward_value
  | none => .num cfg.default_events_reward_value

/-- The `event` fan-out (join_rewards.py lines 162-163): iterate the
`decision_records_by_reward_key` dict in insertion order and run
`update_listeners` on every key's listener list with the event's value.
The `reward` type check of `update_listeners` fires on the first key (so
an empty dict raises nothing even for a non-numeric value). -/
def fanoutEvent (cfg : Cfg) (t : Int) (v : RewArg) (store : List Record) :
    List (String × List Nat) →
    Except PyErr (List Record × List (String × List Nat))
  | [] => .ok (store, [])
  | (k, idxs) :: rest =>
    match v with
    | .nonNum _ => .error .typeError
    | .num q =>
      match update_listeners_idx cfg.reward_window cfg.default_reward_value
          t q store idxs with
      | .error e => .error e
      | .ok (store1, idxs2) =>
        match fanoutEvent cfg t v store1 rest with
        | .error e => .error e
        | .ok (store2, rest2) => .ok (store2, (k, idxs2) :: rest2)

/-- The `for reward_key, reward in record['rewards'].items()` loop of a
`rewards` record (join_rewards.py lines 153-155), iterating the pairs in
dict insertion order. -/
def processPairs (cfg : Cfg) (t : Int) :
    AttribState → List (String × RewArg) → Except PyErr AttribState
  | st, [] => .ok st
  | st, kv :: rest =>
    match processRewardPair cfg t st kv with
    | .error e => .error e
    | .ok st2 => processPairs cfg t st2 rest

/-- One step of the merge pass of `assign_rewards_to_decisions`
(join_rewards.py lines 144-166), dispatching on the record's `type` field.
The record is paired with its index in the concatenated input (its store
slot).  `datetime.strptime` of an unparseable timestamp raises a
`ValueError` (line 152/161, outside any `try`), a `rewards` record with no
`rewards` entry raises a `KeyError` (line 153), and an unrecognized type
raises `InvalidTypeError` (line 166). -/
def processRecord (cfg : Cfg) (st : AttribState) (ir : Nat × Record) :
    Except PyErr AttribState :=
  let r := ir.snd
  if r.rtype = some "decision" then
    let key := r.reward_key.getD cfg.default_reward_key
    let listeners := (lookupA st.listenerMap key).getD []
    .ok ⟨st.store, setA st.listenerMap key (listeners ++ [ir.fst])⟩
  else if r.rtype = some "rewards" then
    match r.timestamp with
    | none => .error .valueError
    | some t =>
      match r.rewards with
      | none => .error .keyError
      | some pairs => processPairs cfg t st pairs
  else if r.rtype = some "event" then
    match r.timestamp with
    | none => .error .valueError
    | some t =>
      match fanoutEvent cfg t (eventValue cfg r) st.store st.listenerMap with
      | .error e => .error e
      | .ok (store2, map2) => .ok ⟨store2, map2⟩
  else
    .error .invalidTypeError

/-- Sort key of a record: its timestamp, with `⊥` for an unparseable one
so that the key order is total.  Modelled from the spec:
`sort_records_by_timestamp` lives in `utils.py`, which is not part of the
sources; the spec (§4.2 step 2) specifies a stable ascending sort by
timestamp. -/
def tsKey (r : Record) : WithBot Int :=
  match r.timestamp with
  | none => ⊥
  | some t => (t : WithBot Int)

/-- Order on indexed records used by the stable sort: ascending timestamp. -/
def recLE (a b : Nat × Record) : Prop :=
  tsKey a.snd ≤ tsKey b.snd

instance : DecidableRel recLE := fun a b =>
  inferInstanceAs (Decidable (tsKey a.snd ≤ tsKey b.snd))

/-- Embedding of `sort_records_by_timestamp(records)`.  Modelled from the
spec: a stable ascending sort of the combined record list by timestamp
(spec §4.2 steps 1-2); insertion sort is stable, and the records carry
their store index. -/
def sort_records_by_timestamp (l : List (Nat × Record)) : List (Nat × Record) :=
  List.insertionSort recLE l

/-- The `for record in records` merge loop (join_rewards.py
lines 144-166). -/
def processAll (cfg : Cfg) :
    AttribState → List (Nat × Record) → Except PyErr AttribState
  | st, [] => .ok st
  | st, ir :: rest =>
    match processRecord cfg st ir with
    | .error e => .error e
    | .ok st2 => processAll cfg st2 rest

/-- Embedding of `assign_rewards_to_decisions(decision_records,
reward_records, event_records)` (join_rewards.py lines 116-168): the three
collections are concatenated (decisions, then rewards, then events),
stably sorted by timestamp, and merged in one pass; the function returns
the original `decision_records` list, whose dicts were mutated in place —
here, the first `decision_records.length` slots of the final store. -/
def assign_rewards_to_decisions (cfg : Cfg)
    (decision_records reward_records event_records : List Record) :
    Except PyErr (List Record) :=
  let records := decision_records ++ reward_records ++ event_records
  let sorted := sort_records_by_timestamp records.enum
  match processAll cfg ⟨records, []⟩ sorted with
  | .error e => .error e
  | .ok final => .ok (final.store.take decision_records.length)

end JoinRewards

namespace ShardAssign

/-- An input file, identified by its name (a list of characters, so that
the first 16 characters are directly addressable). -/
structure InputFile where
  name : List Char
deriving DecidableEq, Repr

/-- Value of one hexadecimal digit, as accepted by Python's `int(s, 16)`. -/
def hexDigitVal (c : Char) : Option Nat :=
  if '0' ≤ c ∧ c ≤ '9' then some (c.toNat - '0'.toNat)
  else if 'a' ≤ c ∧ c ≤ 'f' then some (c.toNat - 'a'.toNat + 10)
  else if 'A' ≤ c ∧ c ≤ 'F' then some (c.toNat - 'A'.toNat + 10)
  else none

/-- Python's `int(s, 16)` on a character list: `none` (a `ValueError`) on
an empty string or any non-hex character, otherwise the base-16 value. -/
def hexVal : List Char → Option Nat
  | [] => none
  | cs => cs.foldlM (fun acc c => (hexDigitVal c).map (fun d => acc * 16 + d)) 0

/-- Value of `int(f.name[:16], 16)` (join_rewards.py line 226): the first
16 characters of the file name read as hexadecimal. -/
def filePrefixVal (f : InputFile) : Option Nat :=
  hexVal (f.name.take 16)

/-- Whether a file matches the `*.jsonl.gz` glob of join_rewards.py
line 222. -/
def globMatch (f : InputFile) : Bool :=
  ".jsonl.gz".toList.isSuffixOf f.name

/-- The `for f in input_dir.glob(...)` loop of `identify_files_to_process`
(join_rewards.py lines 222-227), accumulating `files_to_process`. -/
def identifyLoop (node_id node_count : Int) (acc : List InputFile) :
    List InputFile → Except JoinRewards.PyErr (List InputFile)
  | [] => .ok acc
  | f :: rest =>
    match filePrefixVal f with
    | none => .error .valueError
    | some h =>
      if node_count = 0 then .error .zeroDivisionError
      else if Int.fmod (h : Int) node_count = node_id then
        identifyLoop node_id node_count (acc ++ [f]) rest
      else
        identifyLoop node_id node_count acc rest

/-- Embedding of `identify_files_to_process(input_dir, node_id, node_count)`
(join_rewards.py lines 208-229).  `input_dir` is the directory listing;
the function iterates its `*.jsonl.gz` members, parses the first 16 name
characters as hex (a `ValueError` if they are not hex) and keeps the file
iff that value mod `node_count` equals `node_id`.  Python's `%` on ints is
floor-style (`Int.fmod`) and raises `ZeroDivisionError` when
`node_count = 0`; the function performs no other validation of
`node_count`. -/
def identify_files_to_process (input_dir : List InputFile)
    (node_id node_count : Int) : Except JoinRewards.PyErr (List InputFile) :=
  identifyLoop node_id node_count [] (input_dir.filter globMatch)

end ShardAssign

namespace IngestWorker

/-- A group of incoming decisions for one model, as produced by
`RewardedDecisionPartition.partitions_from_firehose_record_group`
(worker.py line 22).  Only `model_name` is inspected by `worker`; `pid`
stands for the rest of the partition's payload and keeps distinct
partitions distinct. -/
structure RewardedDecisionPartition where
  model_name : String
  pid : Nat
deriving DecidableEq, Repr

/-- Observable events of one run of `worker()` (worker.py lines 15-38):
a partition being processed (`decision_partition.process()`, line 47) or
`repair_overlapping_keys(model_name, partitions)` being invoked
(line 35). -/
inductive WEvent where
  | processOf (p : RewardedDecisionPartition)
  | repairOf (m : String) (ps : List RewardedDecisionPartition)
deriving DecidableEq, Repr

/-- Ascending order on partitions by `model_name`, the key of
`sorted(decision_partitions, key=lambda x: x.model_name)` (worker.py
line 33). -/
def modelLE (a b : RewardedDecisionPartition) : Prop :=
  a.model_name ≤ b.model_name

instance : DecidableRel modelLE := fun a b =>
  inferInstanceAs (Decidable (a.model_name ≤ b.model_name))

/-- Python's `sorted` is stable; insertion sort models it. -/
def sortByModel (ps : List RewardedDecisionPartition) :
    List RewardedDecisionPartition :=
  List.insertionSort modelLE ps

/-- Embedding of `itertools.groupby(..., key=model_name)` (worker.py
line 34): maximal runs of consecutive partitions with equal `model_name`,
each tagged with that name. -/
def groupByModel : List RewardedDecisionPartition →
    List (String × List RewardedDecisionPartition)
  | [] => []
  | p :: rest =>
    match groupByModel rest with
    | [] => [(p.model_name, [p])]
    | (m, g) :: gs =>
      if p.model_name = m then (m, p :: g) :: gs
      else (p.model_name, [p]) :: (m, g) :: gs

/-- Embedding of `worker()` together with `process_decisions`
(worker.py lines 15-47), sequentialized into a trace of observable events.
`flags` records the value of the monotone `SIGTERM` global that the task
for partition `i` observes at its check (worker.py line 42).  A task whose
flag read is `true` calls `sys.exit()`; the resulting `SystemExit` is
re-raised in the main thread when `list(executor.map(...))` collects the
results, so `worker` then exits before the repair loop — the returned
`Bool` is `false` and no repair event is emitted.  Otherwise, after the
thread-pool block joins, partitions are sorted by `model_name`, grouped,
and `repair_overlapping_keys` runs once per group, sequentially. -/
def worker (flags : List Bool) (ps : List RewardedDecisionPartition) :
    List WEvent × Bool :=
  let cancelled := (List.range ps.length).any (fun i => flags.getD i false)
  let processed :=
    (ps.enum.filter (fun ip => ! flags.getD ip.fst false)).map
      (fun ip => WEvent.processOf ip.snd)
  if cancelled then
    (processed, false)
  else
    (processed ++ (groupByModel (sortByModel ps)).map
        (fun g => WEvent.repairOf g.fst g.snd),
     true)

end IngestWorker

namespace JoinRewards

/-- Reward bump that `update_listeners` applies to a surviving listener:
`listener['reward'] = listener.get('reward', DEFAULT_REWARD_VALUE) + float(reward)`. -/
def bumpR (dR v : ℚ) (l : Record) : Record :=
  { l with reward := some (.num ((match l.reward with
      | some (.num q) => q
      | _ => dR) + v)) }

/-- Fate of one listener under a contribution at instant `t` with value
`v`: removed when its timestamp plus the window is strictly before `t`,
otherwise kept with the reward bump. -/
def acceptUpd (W : Int) (dR : ℚ) (t : Int) (v : ℚ) (l : Record) : Option Record :=
  match l.timestamp with
  | none => none
  | some t0 => if t0 + W < t then none else some (bumpR dR v l)

theorem bumpR_timestamp (dR v : ℚ) (l : Record) : (bumpR dR v l).timestamp = l.timestamp :=
  rfl

theorem acceptUpd_eq_some {W : Int} {dR : ℚ} {t : Int} {v : ℚ} {a r : Record}
    (h : acceptUpd W dR t v a = some r) :
    ∃ ta : Int, a.timestamp = some ta ∧ ¬ ta + W < t ∧ r = bumpR dR v a := by
  cases hats : a.timestamp with
  | none => simp [acceptUpd, hats] at h
  | some ta =>
    by_cases haw : ta + W < t
    · simp [acceptUpd, hats, haw] at h
    · simp only [acceptUpd, hats, if_neg haw] at h
      exact ⟨ta, rfl, haw, (Option.some.inj h).symm⟩

theorem acceptUpd_of_inWindow {W : Int} {dR : ℚ} {t : Int} {v : ℚ} {a : Record}
    {ta : Int} (hats : a.timestamp = some ta) (haw : ¬ ta + W < t) :
    acceptUpd W dR t v a = some (bumpR dR v a) := by
  simp only [acceptUpd, hats, if_neg haw]

/-- A normally returning `updateLoop` call returns exactly the in-window
listeners, in their original order, each with the reward bump applied. -/
theorem updateLoop_ok_eq {W : Int} {dR : ℚ} {t : Int} {v : ℚ} :
    ∀ {ls ls2 : List Record}, updateLoop W dR t v ls = .ok ls2 →
      ls2 = ls.filterMap (acceptUpd W dR t v) := by
  intro ls
  induction ls with
  | nil =>
    intro ls2 h
    simp only [updateLoop] at h
    cases h
    simp
  | cons l rest ih =>
    intro ls2 h
    rw [updateLoop] at h
    cases hrest : updateLoop W dR t v rest with
    | error e => rw [hrest] at h; exact absurd h (by simp)
    | ok rest2 =>
      rw [hrest] at h
      cases hts : l.timestamp with
      | none => simp only [hts] at h; exact absurd h (by simp)
      | some t0 =>
        simp only [hts] at h
        by_cases hw : t0 + W < t
        · rw [if_pos hw] at h
          cases h
          simp only [List.filterMap_cons, acceptUpd, hts, if_pos hw]
          exact ih hrest
        · rw [if_neg hw] at h
          cases hrw : l.reward with
          | none =>
            rw [hrw] at h
            cases h
            simp only [List.filterMap_cons, acceptUpd, hts, if_neg hw, bumpR, hrw]
            rw [ih hrest]
          | some a =>
            cases a with
            | num q =>
              rw [hrw] at h
              cases h
              simp only [List.filterMap_cons, acceptUpd, hts, if_neg hw, bumpR, hrw]
              rw [ih hrest]
            | nonNum s => rw [hrw] at h; exact absurd h (by simp)

/-- Every error that escapes the `try` block of `update_listeners` is an
`UpdateListenersError`. -/
theorem updateLoop_error_eq {W : Int} {dR : ℚ} {t : Int} {v : ℚ} :
    ∀ {ls : List Record} {e : PyErr}, updateLoop W dR t v ls = .error e →
      e = .updateListenersError := by
  intro ls
  induction ls with
  | nil => intro e h; simp [updateLoop] at h
  | cons l rest ih =>
    intro e h
    rw [updateLoop] at h
    cases hrest : updateLoop W dR t v rest with
    | error e2 => rw [hrest] at h; cases h; exact ih hrest
    | ok rest2 =>
      rw [hrest] at h
      cases hts : l.timestamp with
      | none => simp only [hts] at h; cases h; rfl
      | some t0 =>
        simp only [hts] at h
        by_cases hw : t0 + W < t
        · rw [if_pos hw] at h; exact absurd h (by simp)
        · rw [if_neg hw] at h
          cases hrw : l.reward with
          | none => rw [hrw] at h; exact absurd h (by simp)
          | some a =>
            cases a with
            | num q => rw [hrw] at h; exact absurd h (by simp)
            | nonNum s => rw [hrw] at h; cases h; rfl

/-- A listener whose stored timestamp does not parse makes `updateLoop`
fail. -/
theorem updateLoop_error_of_bad_timestamp {W : Int} {dR : ℚ} {t : Int} {v : ℚ} :
    ∀ {ls : List Record}, (∃ l ∈ ls, l.timestamp = none) →
      updateLoop W dR t v ls = .error .updateListenersError := by
  intro ls
  induction ls with
  | nil => rintro ⟨l, hl, _⟩; exact absurd hl (by simp)
  | cons l rest ih =>
    rintro ⟨l2, hl2, hts2⟩
    rw [updateLoop]
    rcases List.mem_cons.mp hl2 with rfl | hmem
    · cases hrest : updateLoop W dR t v rest with
      | error e => rw [updateLoop_error_eq hrest]
      | ok rest2 => rw [hts2]
    · rw [ih ⟨l2, hmem, hts2⟩]

/-- C2: for a listener with parsed timestamp `t0` and window `W`, a
contribution at instant `t ≤ t0 + W` is accepted — the listener survives,
in its original position, with its reward updated — while a contribution
at `t > t0 + W` removes the listener from the list; after such a removal
no listener with timestamp `t0` remains, and no further `update_listeners`
call on the resulting list can ever produce one, so the removal is
permanent and the listener can never be updated again. -/
theorem update_listeners_window_accept_expire
    (W : Int) (dR : ℚ) (t : Int) (v : ℚ) (ls ls2 : List Record)
    (h : update_listeners W dR ls (.dt t) (.num v) = .ok ls2) :
    ls2 = ls.filterMap (acceptUpd W dR t v) ∧
    ∀ l ∈ ls, ∀ t0 : Int, l.timestamp = some t0 →
      (t ≤ t0 + W → bumpR dR v l ∈ ls2) ∧
      (t0 + W < t → ∀ r ∈ ls2, r.timestamp ≠ some t0) ∧
      (t0 + W < t → ∀ t2 v2 ls3,
        update_listeners W dR ls2 (.dt t2) (.num v2) = .ok ls3 →
        ∀ r ∈ ls3, r.timestamp ≠ some t0) := by
  have hchar : ls2 = ls.filterMap (acceptUpd W dR t v) := updateLoop_ok_eq h
  refine ⟨hchar, ?_⟩
  intro l hl t0 hts
  have hnolate : t0 + W < t → ∀ r ∈ ls2, r.timestamp ≠ some t0 := by
    intro hw r hr
    rw [hchar] at hr
    rcases List.mem_filterMap.mp hr with ⟨a, _, ha⟩
    rcases acceptUpd_eq_some ha with ⟨ta, hats, haw, rfl⟩
    rw [bumpR_timestamp, hats]
    intro hrts
    cases hrts
    exact haw hw
  refine ⟨?_, hnolate, ?_⟩
  · intro hle
    rw [hchar]
    exact List.mem_filterMap.mpr
      ⟨l, hl, acceptUpd_of_inWindow hts (by omega)⟩
  · intro hw t2 v2 ls3 h3 r hr
    have hchar3 : ls3 = ls2.filterMap (acceptUpd W dR t2 v2) := updateLoop_ok_eq h3
    rw [hchar3] at hr
    rcases List.mem_filterMap.mp hr with ⟨a, ha2, ha⟩
    rcases acceptUpd_eq_some ha with ⟨ta, hats, haw, rfl⟩
    rw [bumpR_timestamp, hats]
    intro hrts
    cases hrts
    exact hnolate hw a ha2 hats

/-- Sample listener: a decision at instant 100 with reward key `k`. -/
def sampleListener : Record :=
  { rtype := some "decision", timestamp := some 100, reward_key := some "k" }

/-- The sample listener after a contribution of 2 under default reward 0. -/
def sampleListenerBumped : Record :=
  { sampleListener with reward := some (.num 2) }

/-- An older listener, expired for a contribution at instant 105 under
window 10. -/
def staleListener : Record :=
  { rtype := some "decision", timestamp := some 50, reward_key := some "k" }

/-- Witness for C2: window 10, default reward 0, contribution value 2 at
instant 105, one listener at instant 100 (105 ≤ 100 + 10, so accepted). -/
theorem update_listeners_window_accept_expire_witness :
    [sampleListenerBumped] = [sampleListener].filterMap (acceptUpd 10 0 105 2) :=
  (update_listeners_window_accept_expire 10 0 105 2 [sampleListener]
    [sampleListenerBumped] (by simp [update_listeners, updateLoop, sampleListener, sampleListenerBumped])).1

/-- A listener with its `reward` entry put back to "absent", for comparing
everything but the reward. -/
def clearReward (l : Record) : Record := { l with reward := none }

theorem clearReward_filterMap_sublist (W : Int) (dR : ℚ) (t : Int) (v : ℚ) :
    ∀ ls : List Record,
      ((ls.filterMap (acceptUpd W dR t v)).map clearReward).Sublist
        (ls.map clearReward) := by
  intro ls
  induction ls with
  | nil => simp
  | cons l rest ih =>
    rw [List.filterMap_cons]
    cases hl : acceptUpd W dR t v l with
    | none =>
      rw [List.map_cons]
      exact (ih).cons _
    | some r =>
      rcases acceptUpd_eq_some hl with ⟨ta, _, _, rfl⟩
      have hcl : clearReward (bumpR dR v l) = clearReward l := rfl
      rw [List.map_cons, List.map_cons, hcl]
      exact ih.cons₂ _

/-- C10: a normally returning `update_listeners` call returns a
subsequence of its input listener list, in the original relative order,
and the only field of a surviving listener that may differ from its input
version is `reward` — erasing the `reward` entry of every output listener
yields a sublist of the input with its `reward` entries erased. -/
theorem update_listeners_subsequence_reward_only
    (W : Int) (dR : ℚ) (ls ls2 : List Record) (ts : TsArg) (ra : RewArg)
    (h : update_listeners W dR ls ts ra = .ok ls2) :
    (ls2.map clearReward).Sublist (ls.map clearReward) := by
  cases ts with
  | nonDt s => exact absurd h (by simp [update_listeners])
  | dt t =>
    cases ra with
    | nonNum s => exact absurd h (by simp [update_listeners])
    | num v =>
      rw [updateLoop_ok_eq h]
      exact clearReward_filterMap_sublist W dR t v ls

/-- Witness for C10: a call that removes the stale listener and updates
the fresh one. -/
theorem update_listeners_subsequence_reward_only_witness :
    ([sampleListenerBumped].map clearReward).Sublist
      (([staleListener, sampleListener]).map clearReward) :=
  update_listeners_subsequence_reward_only 10 0 [staleListener, sampleListener]
    [sampleListenerBumped] (.dt 105) (.num 2) (by simp [update_listeners, updateLoop, sampleListener, sampleListenerBumped, staleListener])

/-- C6 counterexample: a call with a non-`datetime` contribution timestamp
and a call with a non-numeric contribution value both raise `TypeError`
(as the function's own docstring says), not `UpdateListenersError` — the
claim names the wrong exception. -/
theorem update_listeners_type_error_counterexample :
    update_listeners 10 0 [] (.nonDt "2021-01-01") (.num 1) = .error .typeError ∧
    update_listeners 10 0 [] (.dt 0) (.nonNum "abc") = .error .typeError ∧
    PyErr.typeError ≠ PyErr.updateListenersError := by
  refine ⟨rfl, rfl, ?_⟩
  decide

/-- C6 amended: a non-`datetime` contribution timestamp or a non-numeric
contribution value makes `update_listeners` raise `TypeError`;
`UpdateListenersError` is raised for failures inside the per-listener
loop, e.g. a listener whose stored timestamp string does not parse. -/
theorem update_listeners_type_errors (W : Int) (dR : ℚ) (ls : List Record) :
    (∀ ts ra, ((∃ s, ts = TsArg.nonDt s) ∨ (∃ s, ra = RewArg.nonNum s)) →
      update_listeners W dR ls ts ra = .error .typeError) ∧
    (∀ t : Int, ∀ v : ℚ, (∃ l ∈ ls, l.timestamp = none) →
      update_listeners W dR ls (.dt t) (.num v) = .error .updateListenersError) := by
  constructor
  · rintro ts ra (⟨s, rfl⟩ | ⟨s, rfl⟩)
    · rfl
    · cases ts with
      | nonDt s2 => rfl
      | dt t => rfl
  · intro t v hbad
    exact updateLoop_error_of_bad_timestamp hbad

/-- Witness for the amended C6: both error paths at concrete inputs. -/
theorem update_listeners_type_errors_witness :
    update_listeners 10 0 [sampleListener] (.dt 0) (.nonNum "oops") =
      .error .typeError ∧
    update_listeners 10 0 [{ sampleListener with timestamp := none }]
      (.dt 0) (.num 1) = .error .updateListenersError :=
  ⟨(update_listeners_type_errors 10 0 [sampleListener]).1 (.dt 0) (.nonNum "oops")
      (Or.inr ⟨"oops", rfl⟩),
   (update_listeners_type_errors 10 0 [{ sampleListener with timestamp := none }]).2
      0 1 ⟨{ sampleListener with timestamp := none }, by simp, rfl⟩⟩

end JoinRewards

namespace ShardAssign

/-- The ownership test of the shard assigner: the first 16 hex characters
of the file name, read as an integer, taken mod `node_count`, equal
`node_id` (join_rewards.py line 226). -/
def nodeOwns (node_id node_count : Int) (f : InputFile) : Bool :=
  match filePrefixVal f with
  | none => false
  | some h => decide (Int.fmod (h : Int) node_count = node_id)

theorem identifyLoop_ok_eq (node_id node_count : Int) (hC : node_count ≠ 0) :
    ∀ (xs : List InputFile), (∀ f ∈ xs, (filePrefixVal f).isSome) →
      ∀ acc, identifyLoop node_id node_count acc xs =
        .ok (acc ++ xs.filter (nodeOwns node_id node_count)) := by
  intro xs
  induction xs with
  | nil => intro _ acc; simp [identifyLoop]
  | cons f rest ih =>
    intro hhex acc
    have hf := hhex f (by simp)
    cases hph : filePrefixVal f with
    | none => rw [hph] at hf; exact absurd hf (by simp)
    | some h =>
      have hrest : ∀ g ∈ rest, (filePrefixVal g).isSome := by
        intro g hg; exact hhex g (by simp [hg])
      rw [identifyLoop, hph]
      simp only [if_neg hC]
      by_cases hown : Int.fmod (h : Int) node_count = node_id
      · rw [if_pos hown, ih hrest (acc ++ [f])]
        have : nodeOwns node_id node_count f = true := by
          simp [nodeOwns, hph, hown]
        rw [List.filter_cons_of_pos this]
        simp
      · rw [if_neg hown, ih hrest acc]
        have : nodeOwns node_id node_count f = false := by
          simp [nodeOwns, hph, hown]
        rw [List.filter_cons_of_neg (by simp [this])]

/-- C1: for every node count `C > 0` and every directory of `*.jsonl.gz`
files whose names start with 16 hex characters, `identify_files_to_process`
partitions the files: node `n` receives exactly the files whose hex prefix
is ≡ `n` (mod `C`); every file belongs to exactly one node id in
`0..C-1`; and no node receives a file outside the input set — so the union
over all node ids is the full input set and the per-node subsets are
pairwise disjoint. -/
theorem identify_files_partition (files : List InputFile) (C : ℕ) (hC : 0 < C)
    (hglob : ∀ f ∈ files, globMatch f = true)
    (hhex : ∀ f ∈ files, (filePrefixVal f).isSome) :
    (∀ n : ℕ, identify_files_to_process files (n : Int) (C : Int) =
        .ok (files.filter (nodeOwns (n : Int) (C : Int)))) ∧
    (∀ f ∈ files, ∃! n : ℕ, n < C ∧ ∃ l,
        identify_files_to_process files (n : Int) (C : Int) = .ok l ∧ f ∈ l) ∧
    (∀ n : ℕ, ∀ l, identify_files_to_process files (n : Int) (C : Int) = .ok l →
        ∀ f ∈ l, f ∈ files) := by
  have hCne : (C : Int) ≠ 0 := by
    simp only [ne_eq, Nat.cast_eq_zero]
    omega
  have hfilter : files.filter globMatch = files := List.filter_eq_self.mpr hglob
  have hok : ∀ n : ℕ, identify_files_to_process files (n : Int) (C : Int) =
      .ok (files.filter (nodeOwns (n : Int) (C : Int))) := by
    intro n
    rw [identify_files_to_process, hfilter,
      identifyLoop_ok_eq (n : Int) (C : Int) hCne files hhex []]
    simp
  have hmod : ∀ f ∈ files, ∀ h : ℕ, filePrefixVal f = some h →
      ∀ n : ℕ, (nodeOwns (n : Int) (C : Int) f = true ↔ h % C = n) := by
    intro f _ h hph n
    simp only [nodeOwns, hph, decide_eq_true_eq]
    rw [Int.fmod_eq_emod _ (by positivity), ← Int.ofNat_emod]
    exact Nat.cast_inj
  refine ⟨hok, ?_, ?_⟩
  · intro f hf
    have hps := hhex f hf
    cases hph : filePrefixVal f with
    | none => rw [hph] at hps; exact absurd hps (by simp)
    | some h =>
      refine ⟨h % C, ⟨Nat.mod_lt h hC, files.filter (nodeOwns _ _), hok (h % C), ?_⟩, ?_⟩
      · exact List.mem_filter.mpr ⟨hf, (hmod f hf h hph (h % C)).mpr rfl⟩
      · rintro n ⟨_, l, hl, hfl⟩
        rw [hok n] at hl
        cases hl
        have := (List.mem_filter.mp hfl).2
        exact ((hmod f hf h hph n).mp this).symm
  · intro n l hl f hf
    rw [hok n] at hl
    cases hl
    exact (List.mem_filter.mp hf).1

/-- Shorthand for sample file names used by the witnesses: 16 hex zeros
followed by the `.jsonl.gz` suffix has hex prefix value 0. -/
def zeroFile : InputFile := ⟨"0000000000000000.jsonl.gz".toList⟩

def oneFile : InputFile := ⟨"0000000000000001.jsonl.gz".toList⟩

def twoFile : InputFile := ⟨"0000000000000002.jsonl.gz".toList⟩

/-- Witness for C1: three files with prefix values 0, 1, 2 and three
nodes — the file with value 1 is owned by exactly one node id below 3. -/
theorem identify_files_partition_witness :
    ∃! n : ℕ, n < 3 ∧ ∃ l,
      identify_files_to_process [zeroFile, oneFile, twoFile] (n : Int) (3 : Int) =
        .ok l ∧ oneFile ∈ l :=
  (identify_files_partition [zeroFile, oneFile, twoFile] 3 (by decide)
    (by decide) (by decide)).2.1 oneFile (by decide)

/-- C5 counterexample: `identify_files_to_process` raises nothing for the
non-positive node count `-1` — it returns normally and assigns every
parseable file whose value mod `-1` (which is 0 in Python) equals the node
id, so a node count `≤ 0` is not rejected as a configuration error. -/
theorem identify_negative_node_count_counterexample :
    (-1 : Int) ≤ 0 ∧
    identify_files_to_process [zeroFile] 0 (-1) = .ok [zeroFile] :=
  ⟨by decide, by rfl⟩

/-- C5 amended: `identify_files_to_process` performs no validation of
`node_count`.  With `node_count = 0` it raises `ZeroDivisionError` as soon
as the first globbed file is examined, and returns `[]` without error when
no file matches the glob; with `node_count < 0` it returns normally,
selecting the files whose prefix value mod `node_count` (Python floor mod)
equals `node_id`. -/
theorem identify_node_count_validation (files : List InputFile) (node_id : Int) :
    (files.filter globMatch ≠ [] →
      (∀ f ∈ files.filter globMatch, (filePrefixVal f).isSome) →
      identify_files_to_process files node_id 0 = .error .zeroDivisionError) ∧
    (files.filter globMatch = [] →
      identify_files_to_process files node_id 0 = .ok []) ∧
    (∀ node_count : Int, node_count < 0 →
      (∀ f ∈ files.filter globMatch, (filePrefixVal f).isSome) →
      identify_files_to_process files node_id node_count =
        .ok ((files.filter globMatch).filter (nodeOwns node_id node_count))) := by
  refine ⟨?_, ?_, ?_⟩
  · intro hne hhex
    rw [identify_files_to_process]
    cases hfs : files.filter globMatch with
    | nil => exact absurd hfs hne
    | cons f rest =>
      have hf := hhex f (by rw [hfs]; simp)
      cases hph : filePrefixVal f with
      | none => rw [hph] at hf; exact absurd hf (by simp)
      | some h => rw [identifyLoop, hph]; simp
  · intro hfs
    rw [identify_files_to_process, hfs]
    rfl
  · intro node_count hneg hhex
    rw [identify_files_to_process,
      identifyLoop_ok_eq node_id node_count (by omega) _ hhex []]
    simp

/-- Witness for the amended C5: one globbed file and node count 0 gives
the division error. -/
theorem identify_node_count_validation_witness :
    identify_files_to_process [zeroFile] 0 0 = .error .zeroDivisionError :=
  (identify_node_count_validation [zeroFile] 0).1 (by decide) (by decide)

end ShardAssign

namespace JoinRewards

/-- Sample configuration: window 10, default reward 0, default event value
1, default reward key `-`. -/
def cfg0 : Cfg := ⟨10, 0, 1, "-"⟩

/-- A rewards record at instant 105 contributing 2 to key `k`. -/
def rewardsBatch : Record :=
  { rtype := some "rewards", timestamp := some 105, rewards := some [("k", .num 2)] }

/-- C9: a `(reward_key, amount)` pair of a rewards record whose
`reward_key` has no listener list is a silent no-op: the state — the
listener map and every listener of every other key — is returned
unchanged, no entry is created for the key, and no error is raised; a
whole rewards record all of whose keys are unknown likewise leaves the
state untouched. -/
theorem rewards_unknown_key_noop (cfg : Cfg) (t : Int) (st : AttribState)
    (k : String) (q : ℚ) (h : lookupA st.listenerMap k = none) :
    processRewardPair cfg t st (k, .num q) = .ok st ∧
    ∀ pairs : List (String × RewArg),
      (∀ kv ∈ pairs, lookupA st.listenerMap kv.fst = none ∧ ∃ q2, kv.snd = .num q2) →
      processPairs cfg t st pairs = .ok st := by
  have hpair : ∀ k2 : String, ∀ q2 : ℚ, lookupA st.listenerMap k2 = none →
      processRewardPair cfg t st (k2, .num q2) = .ok st := by
    intro k2 q2 h2
    simp [processRewardPair, h2]
  refine ⟨hpair k q h, ?_⟩
  intro pairs
  induction pairs with
  | nil => intro _; rfl
  | cons kv rest ih =>
    intro hall
    obtain ⟨hk, q2, hq⟩ := hall kv (by simp)
    rcases kv with ⟨k2, v2⟩
    simp only at hq
    subst hq
    rw [processPairs, hpair k2 q2 hk]
    exact ih (fun kv2 hkv2 => hall kv2 (by simp [hkv2]))

/-- A sample pass state: one key `k` with one listener, stored at slot 0. -/
def sampleState : AttribState := ⟨[sampleListener], [("k", [0])]⟩

/-- Witness for C9: contributing to unknown key `x` leaves the sample
state untouched. -/
theorem rewards_unknown_key_noop_witness :
    processRewardPair cfg0 105 sampleState ("x", .num 2) = .ok sampleState :=
  (rewards_unknown_key_noop cfg0 105 sampleState "x" 2 (by decide)).1

/-- C3 counterexample: running `assign_rewards_to_decisions` a second time
on the same collections — whose decision dicts were mutated in place by
the first run — adds every contribution again: the sample decision ends
with reward 4 after the second run instead of 2, so re-running is not
idempotent. -/
theorem assign_rerun_counterexample :
    assign_rewards_to_decisions cfg0 [sampleListener] [rewardsBatch] [] =
      .ok [sampleListenerBumped] ∧
    assign_rewards_to_decisions cfg0 [sampleListenerBumped] [rewardsBatch] [] =
      .ok [{ sampleListener with reward := some (.num 4) }] ∧
    ({ sampleListener with reward := some (.num 4) } : Record).reward ≠
      sampleListenerBumped.reward := by
  refine ⟨?_, ?_, by decide⟩
  · simp [assign_rewards_to_decisions, sort_records_by_timestamp,
      List.insertionSort, List.orderedInsert, recLE, tsKey, processAll,
      processRecord, processPairs, processRewardPair, update_listeners_idx,
      storeGet, lookupA, setA, cfg0, sampleListener, sampleListenerBumped,
      rewardsBatch]
  · simp [assign_rewards_to_decisions, sort_records_by_timestamp,
      List.insertionSort, List.orderedInsert, recLE, tsKey, processAll,
      processRecord, processPairs, processRewardPair, update_listeners_idx,
      storeGet, lookupA, setA, cfg0, sampleListener, sampleListenerBumped,
      rewardsBatch]
    norm_num

theorem processAll_decisions (cfg : Cfg) :
    ∀ (l : List (Nat × Record)) (st : AttribState),
      (∀ ir ∈ l, ir.snd.rtype = some "decision") →
      ∃ m, processAll cfg st l = .ok ⟨st.store, m⟩ := by
  intro l
  induction l with
  | nil => intro st _; exact ⟨st.listenerMap, rfl⟩
  | cons ir rest ih =>
    intro st hall
    have hd := hall ir (by simp)
    have hstep : processRecord cfg st ir =
        .ok ⟨st.store, setA st.listenerMap (ir.snd.reward_key.getD cfg.default_reward_key)
          ((lookupA st.listenerMap (ir.snd.reward_key.getD cfg.default_reward_key)).getD []
            ++ [ir.fst])⟩ := by
      simp [processRecord, hd]
    obtain ⟨m, hm⟩ := ih ⟨st.store, setA st.listenerMap
      (ir.snd.reward_key.getD cfg.default_reward_key)
      ((lookupA st.listenerMap (ir.snd.reward_key.getD cfg.default_reward_key)).getD []
        ++ [ir.fst])⟩ (fun jr hjr => hall jr (by simp [hjr]))
    exact ⟨m, by rw [processAll, hstep]; exact hm⟩

/-- C3 amended: the attribution pass is deterministic, so re-running it on
the same input values gives the same output; but because it returns the
mutated decision collection, feeding its output back only reproduces the
first output when no contribution was applied.  In the contribution-free
case — reward and event collections empty, all records decisions — the
call returns its decisions unchanged and a re-run on the output returns
the same list again.  (With any effective contribution, the second run
adds the contribution a second time; see the counterexample.) -/
theorem assign_decisions_only_idempotent (cfg : Cfg) (ds : List Record)
    (hds : ∀ r ∈ ds, r.rtype = some "decision") :
    assign_rewards_to_decisions cfg ds [] [] = .ok ds ∧
    ∀ out, assign_rewards_to_decisions cfg ds [] [] = .ok out →
      assign_rewards_to_decisions cfg out [] [] = .ok out := by
  have h1 : assign_rewards_to_decisions cfg ds [] [] = .ok ds := by
    have hall : ∀ ir ∈ sort_records_by_timestamp (ds ++ [] ++ []).enum,
        ir.snd.rtype = some "decision" := by
      intro ir hir
      rw [sort_records_by_timestamp] at hir
      have hmem : ir ∈ (ds ++ [] ++ []).enum := (List.mem_insertionSort recLE).mp hir
      have hget := List.mem_enum_iff_getElem?.mp hmem
      have : ir.snd ∈ ds ++ [] ++ [] := List.getElem?_mem hget
      simp only [List.append_nil] at this
      exact hds ir.snd this
    obtain ⟨m, hm⟩ := processAll_decisions cfg _ ⟨ds ++ [] ++ [], []⟩ hall
    rw [assign_rewards_to_decisions, hm]
    simp
  refine ⟨h1, ?_⟩
  intro out hout
  rw [h1] at hout
  cases hout
  exact h1

/-- Witness for the amended C3: one decision, no contributions — both runs
return it unchanged. -/
theorem assign_decisions_only_idempotent_witness :
    assign_rewards_to_decisions cfg0 [sampleListener] [] [] = .ok [sampleListener] :=
  (assign_decisions_only_idempotent cfg0 [sampleListener] (by decide)).1

/-- A record whose `type` tag is none of the three recognized ones. -/
def invalidRecord : Record := { rtype := some "bogus", timestamp := some 9 }

/-- A rewards record carrying a non-numeric amount for an unknown key,
with a timestamp earlier than `invalidRecord`'s. -/
def badValueBatch : Record :=
  { rtype := some "rewards", timestamp := some 0,
    rewards := some [("x", .nonNum "oops")] }

/-- C4 counterexample: an input that contains a record with an
unrecognized `type` need not raise `InvalidTypeError` — here an
earlier-sorted rewards record with a non-numeric amount raises `TypeError`
first, before the merge loop ever reaches the bad-type record. -/
theorem assign_invalid_type_counterexample :
    assign_rewards_to_decisions cfg0 [] [badValueBatch] [invalidRecord] =
      .error .typeError ∧
    PyErr.typeError ≠ PyErr.invalidTypeError := by
  refine ⟨?_, by decide⟩
  simp [assign_rewards_to_decisions, sort_records_by_timestamp,
    List.insertionSort, List.orderedInsert, recLE, tsKey, processAll,
    processRecord, processPairs, processRewardPair, update_listeners_idx,
    storeGet, lookupA, setA, cfg0, invalidRecord, badValueBatch]

theorem processRecord_invalid_type (cfg : Cfg) (st : AttribState)
    (ir : Nat × Record) (h1 : ir.snd.rtype ≠ some "decision")
    (h2 : ir.snd.rtype ≠ some "rewards") (h3 : ir.snd.rtype ≠ some "event") :
    processRecord cfg st ir = .error .invalidTypeError := by
  simp [processRecord, h1, h2, h3]

theorem processAll_error_of_invalid (cfg : Cfg) :
    ∀ (l : List (Nat × Record)) (st : AttribState),
      (∃ ir ∈ l, ir.snd.rtype ≠ some "decision" ∧ ir.snd.rtype ≠ some "rewards" ∧
        ir.snd.rtype ≠ some "event") →
      ∃ e, processAll cfg st l = .error e := by
  intro l
  induction l with
  | nil => rintro st ⟨ir, hir, _⟩; exact absurd hir (by simp)
  | cons ir rest ih =>
    rintro st ⟨jr, hjr, hbad⟩
    cases hp : processRecord cfg st ir with
    | error e => exact ⟨e, by rw [processAll, hp]⟩
    | ok st2 =>
      rcases List.mem_cons.mp hjr with rfl | hmem
      · rw [processRecord_invalid_type cfg st jr hbad.1 hbad.2.1 hbad.2.2] at hp
        exact absurd hp (by simp)
      · obtain ⟨e, he⟩ := ih st2 ⟨jr, hmem, hbad⟩
        exact ⟨e, by rw [processAll, hp]; exact he⟩

/-- C4 amended: an input containing a record with an unrecognized `type`
always makes `assign_rewards_to_decisions` fail as a whole — an error is
raised and no decisions are returned — but the error is
`InvalidTypeError` only when no earlier-sorted record fails first (e.g.
with a timestamp `ValueError` or a non-numeric-amount `TypeError`); see
the counterexample for a preempting error. -/
theorem assign_invalid_type_aborts (cfg : Cfg)
    (ds rs es : List Record)
    (h : ∃ r ∈ ds ++ rs ++ es, r.rtype ≠ some "decision" ∧
      r.rtype ≠ some "rewards" ∧ r.rtype ≠ some "event") :
    ∃ e, assign_rewards_to_decisions cfg ds rs es = .error e := by
  obtain ⟨r, hr, hbad⟩ := h
  obtain ⟨i, hget⟩ : ∃ i, (ds ++ rs ++ es)[i]? = some r := by
    obtain ⟨i, hi, hgeti⟩ := List.getElem_of_mem hr
    exact ⟨i, by rw [List.getElem?_eq_getElem hi, hgeti]⟩
  have henum : ((i, r) : Nat × Record) ∈ (ds ++ rs ++ es).enum :=
    List.mem_enum_iff_getElem?.mpr hget
  have hsorted : ((i, r) : Nat × Record) ∈
      sort_records_by_timestamp (ds ++ rs ++ es).enum := by
    rw [sort_records_by_timestamp]
    exact (List.mem_insertionSort recLE).mpr henum
  obtain ⟨e, he⟩ := processAll_error_of_invalid cfg
    (sort_records_by_timestamp (ds ++ rs ++ es).enum)
    ⟨ds ++ rs ++ es, []⟩ ⟨(i, r), hsorted, hbad⟩
  exact ⟨e, by rw [assign_rewards_to_decisions, he]⟩

/-- Witness for the amended C4: a lone unrecognized record aborts the
call with an error. -/
theorem assign_invalid_type_aborts_witness :
    ∃ e, assign_rewards_to_decisions cfg0 [] [] [invalidRecord] = .error e :=
  assign_invalid_type_aborts cfg0 [] [] [invalidRecord]
    ⟨invalidRecord, by simp, by decide, by decide, by decide⟩

/-- Whether the listener at store slot `j` is still inside the window for
a contribution at instant `t` (the negation of the deletion test of
join_rewards.py line 105). -/
def keepB (W t : Int) (store : List Record) (j : Nat) : Bool :=
  match (storeGet store j).timestamp with
  | none => false
  | some t0 => decide (¬ t0 + W < t)

/-- Store slot `j` holds a well-formed listener: its timestamp parses and
its `reward` entry, if present, is numeric. -/
def cleanAt (store : List Record) (j : Nat) : Prop :=
  (storeGet store j).timestamp.isSome ∧
  ((storeGet store j).reward = none ∨
    ∃ q, (storeGet store j).reward = some (.num q))

theorem cleanAt_lt_length {store : List Record} {j : Nat} (h : cleanAt store j) :
    j < store.length := by
  by_contra hge
  obtain ⟨h1, _⟩ := h
  rw [storeGet, List.getD_eq_default _ _ (by omega)] at h1
  exact absurd h1 (by simp [default])

theorem storeGet_set_self (store : List Record) (i : Nat) (a : Record)
    (h : i < store.length) : storeGet (store.set i a) i = a := by
  simp [storeGet, List.getD_eq_getElem?_getD, List.getElem?_set_self h]

theorem storeGet_set_ne (store : List Record) (i j : Nat) (a : Record)
    (h : i ≠ j) : storeGet (store.set i a) j = storeGet store j := by
  simp [storeGet, List.getD_eq_getElem?_getD, List.getElem?_set_ne h]

/-- A store-level `update_listeners` call on well-formed distinct slots
succeeds; it keeps exactly the in-window slots (in order), bumps exactly
their records, and leaves every other store slot untouched. -/
theorem update_listeners_idx_ok (W : Int) (dR : ℚ) (t : Int) (v : ℚ) :
    ∀ (idxs : List Nat) (store : List Record), idxs.Nodup →
      (∀ j ∈ idxs, cleanAt store j) →
      ∃ store2, update_listeners_idx W dR t v store idxs =
          .ok (store2, idxs.filter (keepB W t store)) ∧
        (∀ j, j ∉ idxs → storeGet store2 j = storeGet store j) ∧
        (∀ j ∈ idxs, keepB W t store j = true →
          storeGet store2 j = bumpR dR v (storeGet store j)) ∧
        (∀ j ∈ idxs, keepB W t store j = false →
          storeGet store2 j = storeGet store j) ∧
        store2.length = store.length := by
  intro idxs
  induction idxs with
  | nil =>
    intro store _ _
    exact ⟨store, rfl, fun j _ => rfl, by simp, by simp, rfl⟩
  | cons i rest ih =>
    intro store hnd hcl
    obtain ⟨hinotin, hndrest⟩ := List.nodup_cons.mp hnd
    obtain ⟨store2, heq, hframe, hbump, hkeepf, hlen⟩ :=
      ih store hndrest (fun j hj => hcl j (by simp [hj]))
    have hstorei : storeGet store2 i = storeGet store i := hframe i hinotin
    obtain ⟨hts, hrw⟩ := hcl i (by simp)
    have hilt : i < store.length := cleanAt_lt_length (hcl i (by simp))
    cases hts0 : (storeGet store i).timestamp with
    | none => rw [hts0] at hts; exact absurd hts (by simp)
    | some t0 =>
      rw [update_listeners_idx, heq]
      simp only [hstorei, hts0]
      by_cases hw : t0 + W < t
      · have hki : keepB W t store i = false := by
          simp [keepB, hts0, hw]
        rw [if_pos hw]
        refine ⟨store2, ?_, ?_, ?_, ?_, hlen⟩
        · rw [List.filter_cons, hki]
          simp
        · intro j hj
          exact hframe j (by simp at hj; exact hj.2)
        · intro j hj hkj
          rcases List.mem_cons.mp hj with rfl | hmem
          · rw [hki] at hkj; exact absurd hkj (by simp)
          · exact hbump j hmem hkj
        · intro j hj hkj
          rcases List.mem_cons.mp hj with rfl | hmem
          · exact hstorei
          · exact hkeepf j hmem hkj
      · have hki : keepB W t store i = true := by
          simp [keepB, hts0, hw]
        rw [if_neg hw]
        have hbumpi : ∀ store3 : List Record, store3 = store2.set i
            (bumpR dR v (storeGet store i)) →
            (storeGet store3 i = bumpR dR v (storeGet store i) ∧
             (∀ j, j ≠ i → storeGet store3 j = storeGet store2 j) ∧
             store3.length = store.length) := by
          intro store3 h3
          subst h3
          refine ⟨storeGet_set_self store2 i _ (by omega), ?_, by simp [hlen]⟩
          intro j hj
          exact storeGet_set_ne store2 i j _ (fun he => hj he.symm)
        cases hrw0 : (storeGet store i).reward with
        | none =>
          refine ⟨store2.set i { storeGet store i with
            reward := some (.num (dR + v)) }, ?_, ?_, ?_, ?_, by simp [hlen]⟩
          · simp [List.filter_cons, hki, hts0]
          · intro j hj
            simp only [List.mem_cons, not_or] at hj
            rw [storeGet_set_ne store2 i j _ (fun he => hj.1 he.symm)]
            exact hframe j hj.2
          · intro j hj hkj
            rcases List.mem_cons.mp hj with rfl | hmem
            · rw [storeGet_set_self store2 j _ (by omega)]
              simp [bumpR, hrw0]
            · rw [storeGet_set_ne store2 i j _ (by rintro rfl; exact hinotin hmem)]
              exact hbump j hmem hkj
          · intro j hj hkj
            rcases List.mem_cons.mp hj with rfl | hmem
            · rw [hki] at hkj; exact absurd hkj (by simp)
            · rw [storeGet_set_ne store2 i j _ (by rintro rfl; exact hinotin hmem)]
              exact hkeepf j hmem hkj
        | some a =>
          rcases hrw with hnone | ⟨q, hq⟩
          · rw [hrw0] at hnone; exact absurd hnone (by simp)
          · rw [hrw0] at hq
            injection hq with hq2
            subst hq2
            refine ⟨store2.set i { storeGet store i with
              reward := some (.num (q + v)) }, ?_, ?_, ?_, ?_, by simp [hlen]⟩
            · simp [List.filter_cons, hki, hts0]
            · intro j hj
              simp only [List.mem_cons, not_or] at hj
              rw [storeGet_set_ne store2 i j _ (fun he => hj.1 he.symm)]
              exact hframe j hj.2
            · intro j hj hkj
              rcases List.mem_cons.mp hj with rfl | hmem
              · rw [storeGet_set_self store2 j _ (by omega)]
                simp [bumpR, hrw0]
              · rw [storeGet_set_ne store2 i j _ (by rintro rfl; exact hinotin hmem)]
                exact hbump j hmem hkj
            · intro j hj hkj
              rcases List.mem_cons.mp hj with rfl | hmem
              · rw [hki] at hkj; exact absurd hkj (by simp)
              · rw [storeGet_set_ne store2 i j _ (by rintro rfl; exact hinotin hmem)]
                exact hkeepf j hmem hkj

/-- The event fan-out on well-formed, non-overlapping listener lists
succeeds and applies the window update to every key's list: each list is
filtered to its in-window slots, every surviving listener's reward is
bumped by the event value, and untouched store slots keep their records. -/
theorem fanoutEvent_ok (cfg : Cfg) (t : Int) (q : ℚ) :
    ∀ (m : List (String × List Nat)) (store : List Record),
      (m.flatMap fun e => e.snd).Nodup →
      (∀ e ∈ m, ∀ j ∈ e.snd, cleanAt store j) →
      ∃ store2, fanoutEvent cfg t (.num q) store m =
          .ok (store2, m.map fun e =>
            (e.fst, e.snd.filter (keepB cfg.reward_window t store))) ∧
        (∀ j : Nat, (∀ e ∈ m, j ∉ e.snd) → storeGet store2 j = storeGet store j) ∧
        (∀ e ∈ m, ∀ j ∈ e.snd, keepB cfg.reward_window t store j = true →
          storeGet store2 j = bumpR cfg.default_reward_value q (storeGet store j)) ∧
        store2.length = store.length := by
  intro m
  induction m with
  | nil =>
    intro store _ _
    exact ⟨store, rfl, fun j _ => rfl, by simp, rfl⟩
  | cons e rest ih =>
    rcases e with ⟨k, idxs⟩
    intro store hnd hcl
    rw [List.flatMap_cons] at hnd
    rw [List.nodup_append] at hnd
    obtain ⟨hndidxs, hndrest, hdisj⟩ := hnd
    have hclidxs : ∀ j ∈ idxs, cleanAt store j := hcl (k, idxs) (by simp)
    obtain ⟨store1, heq1, hframe1, hbump1, hkeepf1, hlen1⟩ :=
      update_listeners_idx_ok cfg.reward_window cfg.default_reward_value t q
        idxs store hndidxs hclidxs
    have hnotidxs : ∀ e2 ∈ rest, ∀ j ∈ e2.snd, j ∉ idxs := by
      intro e2 he2 j hj hji
      exact hdisj hji (List.mem_flatMap.mpr ⟨e2, he2, hj⟩)
    have hsame1 : ∀ e2 ∈ rest, ∀ j ∈ e2.snd, storeGet store1 j = storeGet store j := by
      intro e2 he2 j hj
      exact hframe1 j (hnotidxs e2 he2 j hj)
    have hclrest : ∀ e2 ∈ rest, ∀ j ∈ e2.snd, cleanAt store1 j := by
      intro e2 he2 j hj
      have := hcl e2 (by simp [he2]) j hj
      rw [cleanAt, hsame1 e2 he2 j hj]
      exact this
    have hkeep1 : ∀ e2 ∈ rest, ∀ j ∈ e2.snd,
        keepB cfg.reward_window t store1 j = keepB cfg.reward_window t store j := by
      intro e2 he2 j hj
      rw [keepB, keepB, hsame1 e2 he2 j hj]
    obtain ⟨store2, heq2, hframe2, hbump2, hlen2⟩ := ih store1 hndrest hclrest
    refine ⟨store2, ?_, ?_, ?_, by rw [hlen2, hlen1]⟩
    · simp only [fanoutEvent, heq1, heq2]
      have hmaps : (rest.map fun e2 =>
          (e2.fst, e2.snd.filter (keepB cfg.reward_window t store1))) =
          rest.map fun e2 =>
          (e2.fst, e2.snd.filter (keepB cfg.reward_window t store)) := by
        apply List.map_congr_left
        intro e2 he2
        rw [List.filter_congr (fun j hj => hkeep1 e2 he2 j hj)]
      rw [hmaps]
      rfl
    · intro j hj
      rw [hframe2 j (fun e2 he2 => hj e2 (by simp [he2])),
        hframe1 j (hj (k, idxs) (by simp))]
    · intro e2 he2 j hj hkj
      rcases List.mem_cons.mp he2 with rfl | hmem
      · have hjrest : ∀ e3 ∈ rest, j ∉ e3.snd := by
          intro e3 he3 hj3
          exact hdisj hj (List.mem_flatMap.mpr ⟨e3, he3, hj3⟩)
        rw [hframe2 j hjrest]
        exact hbump1 j hj hkj
      · have hk1 : keepB cfg.reward_window t store1 j = true := by
          rw [hkeep1 e2 hmem j hj]; exact hkj
        rw [hbump2 e2 hmem j hj hk1, hsame1 e2 hmem j hj]

/-- C7: when the merge pass processes an `event` record, its value (or
the default event value when `properties.value` is absent — the
`eventValue` hypothesis covers both) is contributed through the window
update to the listener list of every `reward_key` currently in the
listener map: the map keeps exactly its keys in order, each key's list is
filtered to its in-window listeners and each surviving listener's reward
is bumped by the value; a key whose list is empty stays bound to the
empty list, contributes no error (the whole step returns `.ok`), and no
store slot outside the listener lists changes. -/
theorem event_fans_out_to_all_keys (cfg : Cfg) (st : AttribState)
    (i : Nat) (r : Record) (t : Int) (q : ℚ)
    (hty : r.rtype = some "event") (hts : r.timestamp = some t)
    (hv : eventValue cfg r = .num q)
    (hnd : (st.listenerMap.flatMap fun e => e.snd).Nodup)
    (hcl : ∀ e ∈ st.listenerMap, ∀ j ∈ e.snd, cleanAt st.store j) :
    ∃ store2, processRecord cfg st (i, r) = .ok ⟨store2,
        st.listenerMap.map fun e =>
          (e.fst, e.snd.filter (keepB cfg.reward_window t st.store))⟩ ∧
      (∀ e ∈ st.listenerMap, e.snd = [] →
        (e.fst, ([] : List Nat)) ∈ (st.listenerMap.map fun e =>
          (e.fst, e.snd.filter (keepB cfg.reward_window t st.store)))) ∧
      (st.listenerMap.map fun e =>
          (e.fst, e.snd.filter (keepB cfg.reward_window t st.store))).map Prod.fst =
        st.listenerMap.map Prod.fst ∧
      (∀ e ∈ st.listenerMap, ∀ j ∈ e.snd,
        keepB cfg.reward_window t st.store j = true →
        storeGet store2 j = bumpR cfg.default_reward_value q (storeGet st.store j)) ∧
      (∀ j : Nat, (∀ e ∈ st.listenerMap, j ∉ e.snd) →
        storeGet store2 j = storeGet st.store j) := by
  obtain ⟨store2, heq, hframe, hbump, _⟩ :=
    fanoutEvent_ok cfg t q st.listenerMap st.store hnd hcl
  refine ⟨store2, ?_, ?_, by simp, hbump, hframe⟩
  · rw [processRecord]
    simp [hty, hts, hv, heq]
  · intro e he hnil
    refine List.mem_map.mpr ⟨e, he, ?_⟩
    rw [hnil]
    rfl

/-- An event record at instant 105 carrying value 3. -/
def sampleEvent : Record :=
  { rtype := some "event", timestamp := some 105, properties := some (some (.num 3)) }

/-- A pass state with one populated key and one key with an empty listener
list. -/
def sampleState2 : AttribState := ⟨[sampleListener], [("a", [0]), ("b", [])]⟩

/-- Witness for C7: the event fans out over keys `a` (one listener) and
`b` (empty list, no-op) without error. -/
theorem event_fans_out_to_all_keys_witness :
    ∃ store2, processRecord cfg0 sampleState2 (5, sampleEvent) = .ok ⟨store2,
        sampleState2.listenerMap.map fun e =>
          (e.fst, e.snd.filter (keepB cfg0.reward_window 105 sampleState2.store))⟩ ∧
      (∀ e ∈ sampleState2.listenerMap, e.snd = [] →
        (e.fst, ([] : List Nat)) ∈ (sampleState2.listenerMap.map fun e =>
          (e.fst, e.snd.filter (keepB cfg0.reward_window 105 sampleState2.store)))) ∧
      (sampleState2.listenerMap.map fun e =>
          (e.fst, e.snd.filter (keepB cfg0.reward_window 105 sampleState2.store))).map
            Prod.fst = sampleState2.listenerMap.map Prod.fst ∧
      (∀ e ∈ sampleState2.listenerMap, ∀ j ∈ e.snd,
        keepB cfg0.reward_window 105 sampleState2.store j = true →
        storeGet store2 j =
          bumpR cfg0.default_reward_value 3 (storeGet sampleState2.store j)) ∧
      (∀ j : Nat, (∀ e ∈ sampleState2.listenerMap, j ∉ e.snd) →
        storeGet store2 j = storeGet sampleState2.store j) :=
  event_fans_out_to_all_keys cfg0 sampleState2 5 sampleEvent 105 3 rfl rfl rfl
    (by decide)
    (by
      intro e he j hj
      simp only [sampleState2, List.mem_cons, List.not_mem_nil, or_false] at he
      rcases he with rfl | rfl
      · simp only [List.mem_singleton] at hj
        subst hj
        exact ⟨rfl, Or.inl rfl⟩
      · exact absurd hj (by simp))

end JoinRewards

namespace IngestWorker

instance : IsTotal RewardedDecisionPartition modelLE :=
  ⟨fun a b => le_total a.model_name b.model_name⟩

instance : IsTrans RewardedDecisionPartition modelLE :=
  ⟨fun _ _ _ hab hbc => le_trans hab hbc⟩

/-- The model names of the `repair_overlapping_keys` invocations in a
trace, in order. -/
def repairNames (tr : List WEvent) : List String :=
  tr.filterMap fun e =>
    match e with
    | .repairOf m _ => some m
    | _ => none

theorem groupByModel_cons_head (p : RewardedDecisionPartition)
    (rest : List RewardedDecisionPartition) :
    ∃ g gs, groupByModel (p :: rest) = (p.model_name, g) :: gs := by
  cases hg : groupByModel rest with
  | nil => exact ⟨[p], [], by simp only [groupByModel, hg]⟩
  | cons g0 gs =>
    rcases g0 with ⟨m, g⟩
    by_cases hpm : p.model_name = m
    · exact ⟨p :: g, gs, by simp [groupByModel, hg, hpm]⟩
    · exact ⟨[p], (m, g) :: gs, by simp only [groupByModel, hg, if_neg hpm]⟩

theorem mem_groupByModel_keys :
    ∀ (l : List RewardedDecisionPartition) (m : String),
      m ∈ (groupByModel l).map Prod.fst ↔ ∃ p ∈ l, p.model_name = m := by
  intro l
  induction l with
  | nil => intro m; simp [groupByModel]
  | cons p rest ih =>
    intro m
    cases hg : groupByModel rest with
    | nil =>
      have hrest : ∀ m2 : String, ¬∃ q ∈ rest, q.model_name = m2 := by
        intro m2 h
        have := (ih m2).mpr h
        rw [hg] at this
        simp at this
      simp only [groupByModel, hg]
      constructor
      · intro h
        simp only [List.map_cons, List.map_nil, List.mem_singleton] at h
        exact ⟨p, by simp, h.symm⟩
      · rintro ⟨q, hq, hqm⟩
        rcases List.mem_cons.mp hq with rfl | hqrest
        · simp [hqm]
        · exact absurd ⟨q, hqrest, hqm⟩ (hrest m)
    | cons g0 gs =>
      rcases g0 with ⟨m0, g⟩
      have hkeys : m0 ∈ (groupByModel rest).map Prod.fst := by
        rw [hg]; simp
      by_cases hpm : p.model_name = m0
      · simp only [groupByModel, hg, if_pos hpm]
        constructor
        · intro h
          have : m ∈ (groupByModel rest).map Prod.fst := by
            rw [hg]
            simpa using h
          obtain ⟨q, hq, hqm⟩ := (ih m).mp this
          exact ⟨q, by simp [hq], hqm⟩
        · rintro ⟨q, hq, hqm⟩
          rcases List.mem_cons.mp hq with rfl | hqrest
          · have : q.model_name ∈ (groupByModel rest).map Prod.fst := by
              rw [hpm]; exact hkeys
            rw [hg] at this
            subst hqm
            simpa using this
          · have := (ih m).mpr ⟨q, hqrest, hqm⟩
            rw [hg] at this
            simpa using this
      · simp only [groupByModel, hg, if_neg hpm]
        constructor
        · intro h
          simp only [List.map_cons, List.mem_cons] at h
          rcases h with rfl | h
          · exact ⟨p, by simp, rfl⟩
          · obtain ⟨q, hq, hqm⟩ := (ih m).mp (by rw [hg]; simpa using h)
            exact ⟨q, by simp [hq], hqm⟩
        · rintro ⟨q, hq, hqm⟩
          rcases List.mem_cons.mp hq with rfl | hqrest
          · simp [hqm]
          · have := (ih m).mpr ⟨q, hqrest, hqm⟩
            rw [hg] at this
            simp only [List.map_cons, List.mem_cons]
            right
            simpa using this

/-- Unfolding equation of `groupByModel` on a nonempty list. -/
theorem groupByModel_cons (p : RewardedDecisionPartition)
    (rest : List RewardedDecisionPartition) :
    groupByModel (p :: rest) =
      match groupByModel rest with
      | [] => [(p.model_name, [p])]
      | (m, g) :: gs =>
        if p.model_name = m then (m, p :: g) :: gs
        else (p.model_name, [p]) :: (m, g) :: gs := rfl

/-- On a list sorted by `model_name`, `groupByModel` produces each
distinct model name as a key exactly once. -/
theorem groupByModel_count_sorted :
    ∀ (l : List RewardedDecisionPartition), List.Sorted modelLE l →
      ∀ m : String, ((groupByModel l).map Prod.fst).count m =
        if m ∈ l.map (fun p => p.model_name) then 1 else 0 := by
  intro l
  induction l with
  | nil => intro _ m; simp [groupByModel]
  | cons p rest ih =>
    intro hs m
    obtain ⟨hall, hrest⟩ := List.sorted_cons.mp hs
    cases hg : groupByModel rest with
    | nil =>
      have hrestnil : rest = [] := by
        cases rest with
        | nil => rfl
        | cons x xs =>
          obtain ⟨g, gs, hgx⟩ := groupByModel_cons_head x xs
          rw [hgx] at hg
          exact absurd hg (by simp)
      subst hrestnil
      simp only [groupByModel, List.map_cons, List.map_nil]
      by_cases hm : m = p.model_name
      · subst hm
        simp
      · have hm2 : ¬ p.model_name = m := fun h => hm h.symm
        simp [List.count_cons, hm, hm2]
    | cons g0 gs =>
      rcases g0 with ⟨m0, g⟩
      cases rest with
      | nil => rw [groupByModel] at hg; exact absurd hg (by simp)
      | cons x xs =>
        obtain ⟨g2, gs2, hgx⟩ := groupByModel_cons_head x xs
        have hm0 : m0 = x.model_name := by
          have h12 := hgx.symm.trans hg
          injection h12 with h1 _
          injection h1 with ha _
          exact ha.symm
        by_cases hpm : p.model_name = m0
        · have hstep : groupByModel (p :: x :: xs) = (m0, p :: g) :: gs := by
            rw [groupByModel_cons, hg]
            simp [hpm]
          have hm0mem : ∃ q ∈ x :: xs, q.model_name = p.model_name :=
            ⟨x, by simp, by rw [hm0] at hpm; exact hpm.symm⟩
          rw [hstep]
          have hkeys : ((m0, p :: g) :: gs).map Prod.fst =
              (groupByModel (x :: xs)).map Prod.fst := by
            rw [hg]
            simp
          rw [hkeys, ih hrest m]
          by_cases hm : m ∈ (x :: xs).map (fun p => p.model_name)
          · rw [if_pos hm,
              if_pos (by simp only [List.map_cons, List.mem_cons] at hm ⊢; tauto)]
          · rw [if_neg hm, if_neg ?_]
            intro hcon
            simp only [List.map_cons, List.mem_cons] at hcon hm
            rcases hcon with rfl | hcon
            · obtain ⟨q, hq, hqm⟩ := hm0mem
              rcases List.mem_cons.mp hq with rfl | hqxs
              · exact hm (Or.inl hqm.symm)
              · exact hm (Or.inr (by
                  simp only [List.mem_map]
                  exact ⟨q, hqxs, hqm⟩))
            · exact hm hcon
        · have hnotin : p.model_name ∉ (x :: xs).map (fun p => p.model_name) := by
            intro hcon
            simp only [List.map_cons, List.mem_cons, List.mem_map] at hcon
            rcases hcon with hx | ⟨q, hq, hqm⟩
            · exact hpm (by rw [hm0, ← hx])
            · have h1 : modelLE p x := hall x (by simp)
              have h2 : modelLE x q := (List.sorted_cons.mp hrest).1 q hq
              have hxp : x.model_name = p.model_name := le_antisymm (hqm ▸ h2) h1
              exact hpm (by rw [hm0, hxp])
          have hstep : groupByModel (p :: x :: xs) =
              (p.model_name, [p]) :: (m0, g) :: gs := by
            rw [groupByModel_cons, hg]
            simp [hpm]
          rw [hstep, List.map_cons, List.count_cons, ← hg, ih hrest m]
          by_cases hm : m = p.model_name
          · subst hm
            rw [if_neg (fun hcon => hnotin hcon), if_pos (by simp)]
            simp
          · have hne : ¬ ((p.model_name == m) = true) := by
              simp only [beq_iff_eq]
              exact fun h => hm h.symm
            rw [if_neg hne, Nat.add_zero]
            by_cases hmem : m ∈ (x :: xs).map (fun p => p.model_name)
            · rw [if_pos hmem,
                if_pos (by simp only [List.map_cons, List.mem_cons] at hmem ⊢; tauto)]
            · rw [if_neg hmem, if_neg ?_]
              intro hcon
              simp only [List.map_cons, List.mem_cons] at hcon hmem
              rcases hcon with rfl | hcon
              · exact hm rfl
              · exact hmem hcon

theorem repairNames_processed (l : List (Nat × RewardedDecisionPartition)) :
    repairNames (l.map fun ip => WEvent.processOf ip.snd) = [] := by
  induction l with
  | nil => rfl
  | cons a r ih => simp [repairNames, List.filterMap_cons, ih]

theorem repairNames_repairs
    (gs : List (String × List RewardedDecisionPartition)) :
    repairNames (gs.map fun g => WEvent.repairOf g.fst g.snd) =
      gs.map Prod.fst := by
  induction gs with
  | nil => rfl
  | cons a r ih => simpa [repairNames, List.filterMap_cons] using ih

theorem repairNames_append (t1 t2 : List WEvent) :
    repairNames (t1 ++ t2) = repairNames t1 ++ repairNames t2 := by
  simp [repairNames, List.filterMap_append]

/-- C8: in a run that completes without cancellation (every task observes
the `SIGTERM` flag unset), `worker` processes every partition and then, in
a separate later phase, invokes `repair_overlapping_keys` exactly once per
distinct model name — every repair event comes after every processing
event; in a run cancelled by the flag (some task observes it set), the job
exits early and repair is never invoked. -/
theorem worker_repair_fanin (flags : List Bool)
    (ps : List RewardedDecisionPartition) :
    (((List.range ps.length).any fun i => flags.getD i false) = false →
      (worker flags ps).snd = true ∧
      (∀ p ∈ ps, WEvent.processOf p ∈ (worker flags ps).fst) ∧
      (∀ m : String, (repairNames (worker flags ps).fst).count m =
        if m ∈ ps.map (fun p => p.model_name) then 1 else 0) ∧
      (∃ t1 t2, (worker flags ps).fst = t1 ++ t2 ∧
        (∀ e ∈ t1, ∃ p, e = WEvent.processOf p) ∧
        (∀ e ∈ t2, ∃ m2 g, e = WEvent.repairOf m2 g))) ∧
    (((List.range ps.length).any fun i => flags.getD i false) = true →
      (worker flags ps).snd = false ∧
      repairNames (worker flags ps).fst = []) := by
  constructor
  · intro hnc
    have hfilter : ps.enum.filter (fun ip => ! flags.getD ip.fst false) = ps.enum := by
      apply List.filter_eq_self.mpr
      intro ip hip
      have hget := List.mem_enum_iff_getElem?.mp hip
      obtain ⟨hlt, _⟩ := List.getElem?_eq_some.mp hget
      have hflag : flags.getD ip.fst false = false := by
        have h2 := List.any_eq_false.mp hnc ip.fst (List.mem_range.mpr hlt)
        simpa using h2
      show (! flags.getD ip.fst false) = true
      rw [hflag]
      rfl
    have hworker : worker flags ps =
        (ps.enum.map (fun ip => WEvent.processOf ip.snd) ++
          (groupByModel (sortByModel ps)).map
            (fun g => WEvent.repairOf g.fst g.snd), true) := by
      rw [worker]
      simp only [hnc, hfilter]
      rfl
    rw [hworker]
    refine ⟨rfl, ?_, ?_, ?_⟩
    · intro p hp
      obtain ⟨i, hlt, hi⟩ := List.getElem_of_mem hp
      have henum : ((i, p) : Nat × RewardedDecisionPartition) ∈ ps.enum :=
        List.mem_enum_iff_getElem?.mpr (by rw [List.getElem?_eq_getElem hlt, hi])
      exact List.mem_append_left _
        (List.mem_map.mpr ⟨(i, p), henum, rfl⟩)
    · intro m
      rw [repairNames_append, repairNames_processed, List.nil_append,
        repairNames_repairs,
        groupByModel_count_sorted (sortByModel ps)
          (List.sorted_insertionSort modelLE ps) m]
      have hmem : (m ∈ (sortByModel ps).map fun p => p.model_name) ↔
          (m ∈ ps.map fun p => p.model_name) := by
        simp [sortByModel, List.mem_map, List.mem_insertionSort]
      by_cases hm : m ∈ ps.map fun p => p.model_name
      · rw [if_pos (hmem.mpr hm), if_pos hm]
      · rw [if_neg (fun hcon => hm (hmem.mp hcon)), if_neg hm]
    · refine ⟨ps.enum.map (fun ip => WEvent.processOf ip.snd),
        (groupByModel (sortByModel ps)).map
          (fun g => WEvent.repairOf g.fst g.snd), rfl, ?_, ?_⟩
      · intro e he
        obtain ⟨ip, _, hipe⟩ := List.mem_map.mp he
        exact ⟨ip.snd, hipe.symm⟩
      · intro e he
        obtain ⟨g, _, hge⟩ := List.mem_map.mp he
        exact ⟨g.fst, g.snd, hge.symm⟩
  · intro hc
    have hworker : worker flags ps =
        ((ps.enum.filter (fun ip => ! flags.getD ip.fst false)).map
          (fun ip => WEvent.processOf ip.snd), false) := by
      rw [worker]
      simp only [hc]
      rfl
    rw [hworker]
    exact ⟨rfl, repairNames_processed _⟩

/-- Sample partitions: two models, `a` twice and `b` once. -/
def psW : List RewardedDecisionPartition := [⟨"a", 0⟩, ⟨"b", 1⟩, ⟨"a", 2⟩]

/-- Witness for C8: a three-partition, two-model run with the flag never
set processes everything and repairs each model exactly once, after all
processing. -/
theorem worker_repair_fanin_witness :
    (worker [false, false, false] psW).snd = true ∧
    (∀ p ∈ psW, WEvent.processOf p ∈ (worker [false, false, false] psW).fst) ∧
    (∀ m : String, (repairNames (worker [false, false, false] psW).fst).count m =
      if m ∈ psW.map (fun p => p.model_name) then 1 else 0) ∧
    (∃ t1 t2, (worker [false, false, false] psW).fst = t1 ++ t2 ∧
      (∀ e ∈ t1, ∃ p, e = WEvent.processOf p) ∧
      (∀ e ∈ t2, ∃ m2 g, e = WEvent.repairOf m2 g)) :=
  (worker_repair_fanin [false, false, false] psW).1 (by decide)

end IngestWorker
